import Mathlib

/-!
Shallow embedding of `src/cleanvid/service.py`, the folder-watcher service of
the cleanvid repository, together with theorems checking the natural-language
specification against it.

Paths and file names are modelled as lists of characters (`Path`), mirroring
Python strings.  The helper functions `basename`, `dirname`, `splitext` and
`joinPath` model the `os.path` (posixpath) operations the service calls.
The filesystem, the clock and the external `cleanvid` subprocess are modelled
as per-candidate observations supplied by the environment, and the observable
side effects of a cycle (subprocess invocations, file relocations, store
saves) are recorded as an explicit event list.
-/

set_option autoImplicit false

namespace Cleanvid

/-- Paths and file names, as Python strings: lists of characters. -/
abbrev Path := List Char

/-- Shorthand turning a string literal into a `Path`. -/
def chars (s : String) : Path := s.data

/-! ### posixpath operations used by the service

These model CPython's `posixpath.basename`, `posixpath.dirname`,
`posixpath.splitext` and the two-argument `posixpath.join`. -/

/-- `os.path.basename`: everything after the last `'/'` (the whole string if
there is no `'/'`). -/
def basename (p : Path) : Path :=
  (p.reverse.takeWhile (fun c => c ≠ '/')).reverse

/-- `os.path.dirname`: the part up to the last `'/'`; trailing slashes are
stripped unless the result consists only of slashes. -/
def dirname (p : Path) : Path :=
  let head := (p.reverse.dropWhile (fun c => c ≠ '/')).reverse
  if head.isEmpty || head.all (fun c => c = '/') then head
  else (head.reverse.dropWhile (fun c => c = '/')).reverse

/-- `os.path.splitext`: split off the extension at the last dot of the
basename, provided some character of the basename strictly before that dot is
not itself a dot (so `".bashrc"` has no extension). -/
def splitext (p : Path) : Path × Path :=
  let name := basename p
  let extRev := name.reverse.takeWhile (fun c => c ≠ '.')
  if extRev.length = name.length then (p, [])
  else if (name.reverse.drop (extRev.length + 1)).any (fun c => c ≠ '.') then
    (p.take (p.length - (extRev.length + 1)), p.drop (p.length - (extRev.length + 1)))
  else (p, [])

/-- Two-argument `os.path.join`. -/
def joinPath (a b : Path) : Path :=
  if b.head? = some '/' then b
  else if a = [] ∨ a.getLast? = some '/' then a ++ b
  else a ++ '/' :: b

/-! ### Directory scanner (`find_videos`, `find_subs`) -/

/-- `VIDEO_EXTS` from service.py, line 26. -/
def VIDEO_EXTS : List Path :=
  [chars ".mp4", chars ".mkv", chars ".avi", chars ".mov",
   chars ".wmv", chars ".flv", chars ".m4v"]

/-- What the service observes about one directory entry: its name (relative
to the root) and whether `os.path.isfile` holds of the joined path. -/
structure DirEntry where
  name : Path
  isFile : Bool
deriving DecidableEq, Repr

/-- A directory listing: `none` when `os.path.isdir` is false for the root
(missing or not a directory), otherwise the entries of `os.listdir`. -/
abbrev Listing := Option (List DirEntry)

/-- `entry.startswith('.')`. -/
def startsDot (n : Path) : Bool :=
  match n with
  | c :: _ => c = '.'
  | [] => false

/-- `entry.lower().endswith(exts)`: the lowercased name ends with one of the
given suffixes. -/
def endsWithAny (n : Path) (exts : List Path) : Bool :=
  exts.any (fun e => e.isSuffixOf (n.map Char.toLower))

/-- `find_videos` (service.py lines 39-47): yield `os.path.join(path, entry)`
for each listed entry that is not dot-prefixed, is a regular file, and whose
lowercased name ends with one of `VIDEO_EXTS`. -/
def find_videos (root : Path) (listing : Listing) : List Path :=
  match listing with
  | none => []
  | some es =>
      es.filterMap (fun e =>
        if startsDot e.name then none
        else if e.isFile && endsWithAny e.name VIDEO_EXTS then
          some (joinPath root e.name)
        else none)

/-- `find_subs` (service.py lines 50-58): same filter with the single
suffix `.srt`. -/
def find_subs (root : Path) (listing : Listing) : List Path :=
  match listing with
  | none => []
  | some es =>
      es.filterMap (fun e =>
        if startsDot e.name then none
        else if e.isFile && endsWithAny e.name [chars ".srt"] then
          some (joinPath root e.name)
        else none)

/-! ### Fingerprint store (the processed DB) -/

/-- `stat_info` result: `{'size': st.st_size, 'mtime': int(st.st_mtime)}`
(service.py lines 134-139).  `stat_info` itself returns `None` when `os.stat`
raises, so the service always handles `Option StatInfo`. -/
structure StatInfo where
  size : Nat
  mtime : Int
deriving DecidableEq, Repr

/-- One record of the processed DB (service.py line 192):
`{'video': vstat, 'subs': sstat, 'processed_at': int(time.time())}`. -/
structure DBEntry where
  video : Option StatInfo
  subs : Option StatInfo
  processed_at : Int
deriving DecidableEq, Repr

/-- The processed DB: a Python dict keyed by the canonical absolute video
path, modelled as an association list without duplicate-key cons. -/
abbrev DB := List (Path × DBEntry)

/-- `db.get(key)`. -/
def dbGet (db : DB) (key : Path) : Option DBEntry :=
  match db with
  | [] => none
  | (k, v) :: rest => if k = key then some v else dbGet rest key

/-- `db[key] = v`: replace the binding for `key` if present, else append. -/
def dbSet (db : DB) (key : Path) (v : DBEntry) : DB :=
  match db with
  | [] => [(key, v)]
  | (k, w) :: rest => if k = key then (k, v) :: rest else (k, w) :: dbSet rest key v

/-! ### Change detector -/

/-- The `needs` computation of service.py lines 176-185, with the nested-if
structure of the source: no stored entry, else stored video stat differs,
else stored subtitle stat differs. -/
def needsProcessing (entry : Option DBEntry) (vstat sstat : Option StatInfo) : Bool :=
  match entry with
  | none => true
  | some e =>
      if e.video ≠ vstat then true
      else if e.subs ≠ sstat then true
      else false

/-! ### Processing invoker and poll cycle

The filesystem, clock and subprocess are external to the service; what the
service sees of them for one candidate in one cycle is collected in
`CandObs`.  Observable side effects are recorded as `Event`s. -/

/-- Static configuration of one service run (environment variables read once
in `main`, service.py lines 97-114). -/
structure Config where
  output_dir : Path
  processed_dir : Path
  swears_file : Path
  preserve_input : Bool
  write_next_to_input : Bool
deriving DecidableEq, Repr

/-- What the environment returns for one candidate during one cycle:
the two `os.path.getsize` samples (`none` when `OSError` is raised), the
`stat_info` results for video and subtitle, `os.path.isfile(srt_path)`,
`os.path.abspath(vpath)`, whether the `cleanvid` subprocess exits zero, and
`int(time.time())`. -/
structure CandObs where
  sizes : Option (Nat × Nat)
  vstat : Option StatInfo
  sstat : Option StatInfo
  srtIsFile : Bool
  absKey : Path
  procOk : Bool
  now : Int
deriving DecidableEq, Repr

/-- One candidate of a cycle: the video path, the optional paired subtitle
path (`subs_map.get(base)`), and the environment's observations for it. -/
structure Cand where
  vpath : Path
  srt : Option Path
  obs : CandObs
deriving DecidableEq, Repr

/-- Observable side effects of a cycle. -/
inductive Event where
  /-- `subprocess.run(cleanvid -i video -o out [-s sub])` (service.py line 75). -/
  | invoke (video : Path) (sub : Option Path) (out : Path)
  /-- `shutil.move(src, dst)` of an input into the processed dir (lines 80, 85). -/
  | move (src : Path) (dst : Path)
  /-- `save_db(db)` after recording `key` (line 193). -/
  | save (key : Path) (db : DB)
  /-- `time.sleep(poll_interval)` at the end of a loop iteration (line 196). -/
  | sleep
deriving DecidableEq, Repr

def Event.isInvoke : Event → Bool
  | .invoke _ _ _ => true
  | _ => false

def Event.isMove : Event → Bool
  | .move _ _ => true
  | _ => false

def Event.isSave : Event → Bool
  | .save _ _ => true
  | _ => false

def Event.isSleep : Event → Bool
  | .sleep => true
  | _ => false

/-- The output path computed by `process` (service.py lines 62-67):
`base + '_clean' + ext`, next to the input or in the output directory. -/
def outFile (video_path : Path) (output_dir : Path) (write_next_to_input : Bool) : Path :=
  let base := (splitext (basename video_path)).1
  let ext := (splitext video_path).2
  if write_next_to_input then joinPath (dirname video_path) (base ++ chars "_clean" ++ ext)
  else joinPath output_dir (base ++ chars "_clean" ++ ext)

/-- The `-s` argument of the subprocess command (service.py lines 70-71):
the subtitle path, when one is paired and `os.path.isfile` holds of it. -/
def subArg (srt_path : Option Path) (obs : CandObs) : Option Path :=
  match srt_path with
  | some s => if obs.srtIsFile then some s else none
  | none => none

/-- The relocations `process` performs on success (service.py lines 77-87):
none when `preserve_input` is set, otherwise the video and, when paired and
present, the subtitle are moved into the processed directory under their
basenames. -/
def moveEvents (cfg : Config) (video_path : Path) (srt_path : Option Path)
    (obs : CandObs) : List Event :=
  if cfg.preserve_input then []
  else
    Event.move video_path (joinPath cfg.processed_dir (basename video_path)) ::
      (match srt_path with
       | some s =>
           if obs.srtIsFile then
             [Event.move s (joinPath cfg.processed_dir (basename s))]
           else []
       | none => [])

/-- `process` (service.py lines 61-91): run the subprocess; on zero exit,
optionally relocate the input video and subtitle into the processed
directory and report success; on `CalledProcessError` report failure with no
relocation. -/
def process (cfg : Config) (video_path : Path) (srt_path : Option Path)
    (obs : CandObs) : Bool × List Event :=
  let out := outFile video_path cfg.output_dir cfg.write_next_to_input
  let inv := Event.invoke video_path (subArg srt_path obs) out
  if obs.procOk then (true, inv :: moveEvents cfg video_path srt_path obs)
  else (false, [inv])

/-- The per-candidate body of the cycle loop (service.py lines 160-193):
stability gate, change detection, invocation, store mutation and save. -/
def stepCand (cfg : Config) (db : DB) (c : Cand) : DB × List Event :=
  match c.obs.sizes with
  | none => (db, [])
  | some (s1, s2) =>
      if s1 ≠ s2 then (db, [])
      else
        let key := c.obs.absKey
        let vstat := c.obs.vstat
        let sstat := if c.srt.isSome then c.obs.sstat else none
        if needsProcessing (dbGet db key) vstat sstat = false then (db, [])
        else
          let r := process cfg c.vpath c.srt c.obs
          if r.1 then
            let db' := dbSet db key ⟨vstat, sstat, c.obs.now⟩
            (db', r.2 ++ [Event.save key db'])
          else (db, r.2)

/-- Run the per-candidate body over all candidates of a cycle, in order,
accumulating events. -/
def runCandidates (cfg : Config) (db : DB) : List Cand → DB × List Event
  | [] => (db, [])
  | c :: rest =>
      let r := stepCand cfg db c
      let r' := runCandidates cfg r.1 rest
      (r'.1, r.2 ++ r'.2)

/-! ### Poll loop orchestrator

One iteration of `while True` (service.py lines 150-196) runs the cycle body
inside `try`, catches any exception at the cycle boundary (lines 194-195) and
then sleeps (line 196).  A cycle's environment supplies the candidate list
the scan produced and, optionally, a point at which an exception escapes the
body (scan failures are the case `raiseAfter = some 0`).  Because `db` is a
Python variable of the enclosing scope, mutations made before the exception
survive it. -/
structure CycleEnv where
  cands : List Cand
  raiseAfter : Option Nat
deriving Repr

/-- The `try` body of one loop iteration: either it completes, or an
exception escapes after some prefix of the candidates was processed. -/
def cycleBody (cfg : Config) (db : DB) (env : CycleEnv) :
    Except (DB × List Event) (DB × List Event) :=
  match env.raiseAfter with
  | none => Except.ok (runCandidates cfg db env.cands)
  | some k => Except.error (runCandidates cfg db (env.cands.take k))

/-- One full `while True` iteration: run the body, catch any exception at
the cycle boundary, and in every case proceed to the interval sleep. -/
def loopStep (cfg : Config) (db : DB) (env : CycleEnv) : DB × List Event :=
  match cycleBody cfg db env with
  | Except.ok r => (r.1, r.2 ++ [Event.sleep])
  | Except.error r => (r.1, r.2 ++ [Event.sleep])

/-- The service loop run against a finite prefix of cycle environments. -/
def serviceRun (cfg : Config) (db : DB) : List CycleEnv → DB × List Event
  | [] => (db, [])
  | env :: rest =>
      let r := loopStep cfg db env
      let r' := serviceRun cfg r.1 rest
      (r'.1, r.2 ++ r'.2)

/-! ### Store persistence (`load_db` / `save_db`) -/

/-- The slice of the filesystem holding the store: the parsed content of the
DB file (`none` when missing or corrupt) and of its `.tmp` sibling. -/
structure StoreFS where
  storeFile : Option DB
  tmpFile : Option DB
deriving DecidableEq, Repr

/-- `load_db` (service.py lines 116-123): parse the store file, degrading to
the empty dict when the file is missing or unreadable. -/
def load_db (fs : StoreFS) : DB :=
  match fs.storeFile with
  | some db => db
  | none => []

/-- First half of `save_db` (service.py lines 127-129): serialize the whole
in-memory dict into the `.tmp` sibling.  The store file is untouched. -/
def saveWriteTmp (fs : StoreFS) (db : DB) : StoreFS :=
  { fs with tmpFile := some db }

/-- Second half of `save_db` (service.py line 130): `os.replace(tmp, db)`,
the atomic rename of the temp file over the store file. -/
def saveRename (fs : StoreFS) : StoreFS :=
  { storeFile := fs.tmpFile, tmpFile := none }

/-- `save_db` (service.py lines 125-132): write-temp then atomic-rename. -/
def save_db (fs : StoreFS) (db : DB) : StoreFS :=
  saveRename (saveWriteTmp fs db)

/-! ### Merging scan results across watch roots (service.py lines 152-158)

`video_map[os.path.splitext(os.path.basename(v))[0]] = v` for every video of
every root, roots in configuration order, and likewise `subs_map` over
`find_subs`; later assignments overwrite earlier ones. -/

/-- A stem-keyed dict, as an association list with overwrite-on-insert. -/
abbrev StemMap := List (Path × Path)

def stemGet (m : StemMap) (key : Path) : Option Path :=
  match m with
  | [] => none
  | (k, v) :: rest => if k = key then some v else stemGet rest key

def stemSet (m : StemMap) (key : Path) (v : Path) : StemMap :=
  match m with
  | [] => [(key, v)]
  | (k, w) :: rest => if k = key then (k, v) :: rest else (k, w) :: stemSet rest key v

/-- Insert a list of found paths into a stem map under their basename stems,
in listing order. -/
def insertPaths (m : StemMap) (paths : List Path) : StemMap :=
  match paths with
  | [] => m
  | p :: rest => insertPaths (stemSet m (splitext (basename p)).1 p) rest

/-- A watch root together with its listing for this cycle. -/
structure Root where
  dir : Path
  listing : Listing
deriving Repr

/-- The `video_map` built by the cycle across all watch roots in
configuration order. -/
def buildVideoMap (roots : List Root) : StemMap :=
  roots.foldl (fun m r => insertPaths m (find_videos r.dir r.listing)) []

/-- The `subs_map` built by the cycle across all watch roots. -/
def buildSubsMap (roots : List Root) : StemMap :=
  roots.foldl (fun m r => insertPaths m (find_subs r.dir r.listing)) []

/-- The stem map a single root contributes on its own. -/
def rootVideoMap (r : Root) : StemMap :=
  insertPaths [] (find_videos r.dir r.listing)

/-- The stem map of subtitles a single root contributes on its own. -/
def rootSubsMap (r : Root) : StemMap :=
  insertPaths [] (find_subs r.dir r.listing)

/-! ### Spec-side definition for the output-naming claim -/

/-- Spec-side definition (section 4.4, step 1 of the spec): derive the output
file name by inserting the fixed suffix `_clean` before the original
extension of the input's file name.  Stated with the spec's words, to be
compared against `outFile`, which is translated from the code. -/
def insertCleanSuffix (name : Path) : Path :=
  (splitext name).1 ++ chars "_clean" ++ (splitext name).2

/-! ## Helper lemmas -/

theorem takeWhile_all_append (p : Char → Bool) (l₁ l₂ : List Char) (x : Char)
    (h₁ : ∀ a ∈ l₁, p a = true) (hx : p x = false) :
    List.takeWhile p (l₁ ++ x :: l₂) = l₁ := by
  induction l₁ with
  | nil => simp [List.takeWhile_cons, hx]
  | cons a t ih =>
      have ha : p a = true := h₁ a (List.mem_cons_self a t)
      simp only [List.cons_append, List.takeWhile_cons, ha, if_true]
      have := ih (fun b hb => h₁ b (List.mem_cons_of_mem a hb))
      simp [this]

theorem dropWhile_all_append (p : Char → Bool) (l₁ l₂ : List Char) (x : Char)
    (h₁ : ∀ a ∈ l₁, p a = true) (hx : p x = false) :
    List.dropWhile p (l₁ ++ x :: l₂) = x :: l₂ := by
  induction l₁ with
  | nil => simp [List.dropWhile_cons, hx]
  | cons a t ih =>
      have ha : p a = true := h₁ a (List.mem_cons_self a t)
      simp only [List.cons_append, List.dropWhile_cons, ha, if_true]
      exact ih (fun b hb => h₁ b (List.mem_cons_of_mem a hb))

theorem takeWhile_le_length (p : Char → Bool) (l : List Char) :
    (List.takeWhile p l).length ≤ l.length := by
  induction l with
  | nil => simp
  | cons a t ih =>
      by_cases h : p a = true
      · simpa [List.takeWhile_cons, h] using Nat.succ_le_succ ih
      · simp only [Bool.not_eq_true] at h
        simp [List.takeWhile_cons, h]

theorem dbGet_dbSet (db : DB) (k k' : Path) (v : DBEntry) :
    dbGet (dbSet db k v) k' = if k = k' then some v else dbGet db k' := by
  induction db with
  | nil =>
      by_cases h : k = k' <;> simp [dbSet, dbGet, h]
  | cons hd tl ih =>
      obtain ⟨k₀, v₀⟩ := hd
      by_cases h₀ : k₀ = k
      · subst h₀
        by_cases h : k₀ = k' <;> simp [dbSet, dbGet, h]
      · by_cases h : k₀ = k'
        · subst h
          have hne : ¬ k = k₀ := fun hh => h₀ hh.symm
          simp [dbSet, dbGet, h₀, hne]
        · simp [dbSet, dbGet, h₀, h, ih]

theorem stemGet_stemSet (m : StemMap) (k k' : Path) (v : Path) :
    stemGet (stemSet m k v) k' = if k = k' then some v else stemGet m k' := by
  induction m with
  | nil =>
      by_cases h : k = k' <;> simp [stemSet, stemGet, h]
  | cons hd tl ih =>
      obtain ⟨k₀, v₀⟩ := hd
      by_cases h₀ : k₀ = k
      · subst h₀
        by_cases h : k₀ = k' <;> simp [stemSet, stemGet, h]
      · by_cases h : k₀ = k'
        · subst h
          have hne : ¬ k = k₀ := fun hh => h₀ hh.symm
          simp [stemSet, stemGet, h₀, hne]
        · simp [stemSet, stemGet, h₀, h, ih]

/-- C1: the change-detector decision is true exactly when no record is stored
under the key, or the stored video fingerprint differs from the current one,
or the stored subtitle fingerprint differs from the current one; it is false
exactly when a record is stored and both fingerprints match it. -/
theorem change_detector_decision (db : DB) (key : Path) (vstat sstat : Option StatInfo) :
    (needsProcessing (dbGet db key) vstat sstat = true ↔
      dbGet db key = none ∨
        ∃ e, dbGet db key = some e ∧ (e.video ≠ vstat ∨ e.subs ≠ sstat)) ∧
    (needsProcessing (dbGet db key) vstat sstat = false ↔
      ∃ e, dbGet db key = some e ∧ e.video = vstat ∧ e.subs = sstat) := by
  cases h : dbGet db key with
  | none => simp [needsProcessing]
  | some e =>
      by_cases hv : e.video = vstat <;> by_cases hs : e.subs = sstat <;>
        simp [needsProcessing, hv, hs]

/-- C5: writing the temp file leaves the persisted store file untouched and
still loadable to the previous contents, and only the final atomic rename
installs the new contents. -/
theorem save_db_crash_safety (fs : StoreFS) (db : DB) :
    (saveWriteTmp fs db).storeFile = fs.storeFile ∧
    load_db (saveWriteTmp fs db) = load_db fs ∧
    (save_db fs db).storeFile = some db ∧
    load_db (save_db fs db) = db :=
  ⟨rfl, rfl, rfl, rfl⟩

theorem runCandidates_cons (cfg : Config) (db : DB) (a : Cand) (t : List Cand) :
    runCandidates cfg db (a :: t) =
      ((runCandidates cfg (stepCand cfg db a).1 t).1,
        (stepCand cfg db a).2 ++ (runCandidates cfg (stepCand cfg db a).1 t).2) := rfl

theorem runCandidates_cons_fst (cfg : Config) (db : DB) (a : Cand) (t : List Cand) :
    (runCandidates cfg db (a :: t)).1 = (runCandidates cfg (stepCand cfg db a).1 t).1 := rfl

theorem runCandidates_cons_snd (cfg : Config) (db : DB) (a : Cand) (t : List Cand) :
    (runCandidates cfg db (a :: t)).2 =
      (stepCand cfg db a).2 ++ (runCandidates cfg (stepCand cfg db a).1 t).2 := rfl

/-- On a failed invocation `stepCand` leaves the DB alone and emits at most
the invocation event. -/
theorem stepCand_fail_shape (cfg : Config) (db : DB) (c : Cand)
    (h : c.obs.procOk = false) :
    stepCand cfg db c = (db, []) ∨
      stepCand cfg db c =
        (db, [Event.invoke c.vpath (subArg c.srt c.obs)
                (outFile c.vpath cfg.output_dir cfg.write_next_to_input)]) := by
  rcases hsz : c.obs.sizes with _ | ⟨s1, s2⟩
  · left; simp [stepCand, hsz]
  · by_cases h12 : s1 = s2
    · subst h12
      by_cases hneed : needsProcessing (dbGet db c.obs.absKey) c.obs.vstat
          (if c.srt.isSome then c.obs.sstat else none) = false
      · left; simp [stepCand, hsz, hneed]
      · right; simp [stepCand, hsz, hneed, process, h]
    · left; simp [stepCand, hsz, h12]

/-- `stepCand` either leaves the DB unchanged, or (only when the subprocess
succeeded) records the candidate's current fingerprints under its canonical
key. -/
theorem stepCand_fst_cases (cfg : Config) (db : DB) (c : Cand) :
    (stepCand cfg db c).1 = db ∨
      (c.obs.procOk = true ∧
        (stepCand cfg db c).1 =
          dbSet db c.obs.absKey
            ⟨c.obs.vstat, if c.srt.isSome then c.obs.sstat else none, c.obs.now⟩) := by
  rcases hsz : c.obs.sizes with _ | ⟨s1, s2⟩
  · left; simp [stepCand, hsz]
  · by_cases h12 : s1 = s2
    · subst h12
      by_cases hneed : needsProcessing (dbGet db c.obs.absKey) c.obs.vstat
          (if c.srt.isSome then c.obs.sstat else none) = false
      · left; simp [stepCand, hsz, hneed]
      · cases hok : c.obs.procOk
        · left; simp [stepCand, hsz, hneed, process, hok]
        · right
          exact ⟨rfl, by simp [stepCand, hsz, hneed, process, hok]⟩
    · left; simp [stepCand, hsz, h12]

/-- `stepCand` touches no DB key other than the candidate's canonical key. -/
theorem stepCand_preserves_other (cfg : Config) (db : DB) (c : Cand) (k : Path)
    (hk : k ≠ c.obs.absKey) :
    dbGet (stepCand cfg db c).1 k = dbGet db k := by
  rcases stepCand_fst_cases cfg db c with h | ⟨_, h⟩
  · rw [h]
  · rw [h, dbGet_dbSet, if_neg (fun hh => hk hh.symm)]

/-- A stable candidate whose stored fingerprints match the current ones is
skipped entirely: the DB is unchanged and no event is emitted. -/
theorem stepCand_skip (cfg : Config) (db : DB) (c : Cand) (e : DBEntry) (n : Nat)
    (hstable : c.obs.sizes = some (n, n))
    (hrec : dbGet db c.obs.absKey = some e)
    (hv : e.video = c.obs.vstat)
    (hs : e.subs = (if c.srt.isSome then c.obs.sstat else none)) :
    stepCand cfg db c = (db, []) := by
  have hneed : needsProcessing (dbGet db c.obs.absKey) c.obs.vstat
      (if c.srt.isSome then c.obs.sstat else none) = false := by
    rw [hrec]; simp [needsProcessing, hv, hs]
  simp [stepCand, hstable, hneed]

/-- Removing a stable, unchanged, already-recorded candidate from the cycle's
candidate list does not change what the cycle does, provided no earlier
candidate shares its canonical key (distinct files have distinct canonical
absolute paths). -/
theorem runCandidates_skip_aux (cfg : Config) (c : Cand) (e : DBEntry) (n : Nat)
    (l2 : List Cand)
    (hstable : c.obs.sizes = some (n, n))
    (hv : e.video = c.obs.vstat)
    (hs : e.subs = (if c.srt.isSome then c.obs.sstat else none)) :
    ∀ (l1 : List Cand) (db : DB),
      dbGet db c.obs.absKey = some e →
      (∀ c' ∈ l1, c'.obs.absKey ≠ c.obs.absKey) →
      runCandidates cfg db (l1 ++ c :: l2) = runCandidates cfg db (l1 ++ l2) := by
  intro l1
  induction l1 with
  | nil =>
      intro db hrec _
      have hskip := stepCand_skip cfg db c e n hstable hrec hv hs
      simp [runCandidates, hskip]
  | cons a t ih =>
      intro db hrec hdist
      have hne : c.obs.absKey ≠ a.obs.absKey :=
        fun hh => hdist a (List.mem_cons_self a t) hh.symm
      have hrec' : dbGet (stepCand cfg db a).1 c.obs.absKey = some e := by
        rw [stepCand_preserves_other cfg db a c.obs.absKey hne]; exact hrec
      have ih' := ih (stepCand cfg db a).1 hrec'
        (fun c' hc' => hdist c' (List.mem_cons_of_mem a hc'))
      simp only [List.cons_append]
      rw [runCandidates_cons, runCandidates_cons, ih']

/-- Any DB change a cycle makes originates in a candidate whose subprocess
invocation succeeded; the record stored for it is exactly that candidate's
current (video, subtitle) fingerprint pair. -/
theorem runCandidates_record_origin (cfg : Config) :
    ∀ (cands : List Cand) (db : DB) (key : Path),
      dbGet (runCandidates cfg db cands).1 key ≠ dbGet db key →
      ∃ c' ∈ cands, c'.obs.absKey = key ∧ c'.obs.procOk = true ∧
        dbGet (runCandidates cfg db cands).1 key =
          some ⟨c'.obs.vstat, if c'.srt.isSome then c'.obs.sstat else none, c'.obs.now⟩ := by
  intro cands
  induction cands with
  | nil => intro db key h; simp [runCandidates] at h
  | cons a t ih =>
      intro db key h
      rw [runCandidates_cons_fst] at h ⊢
      by_cases h1 : dbGet (runCandidates cfg (stepCand cfg db a).1 t).1 key =
          dbGet (stepCand cfg db a).1 key
      · have h2 : dbGet (stepCand cfg db a).1 key ≠ dbGet db key := by
          intro hcontra; exact h (h1.trans hcontra)
        rcases stepCand_fst_cases cfg db a with hc | ⟨hok, hc⟩
        · exact absurd (by rw [hc]) h2
        · have hkey : a.obs.absKey = key := by
            by_contra hnk
            exact h2 (by rw [hc, dbGet_dbSet, if_neg hnk])
          refine ⟨a, List.mem_cons_self a t, hkey, hok, ?_⟩
          rw [h1, hc, dbGet_dbSet, if_pos hkey]
      · rcases ih (stepCand cfg db a).1 key h1 with ⟨c', hc', hkey, hok, hval⟩
        exact ⟨c', List.mem_cons_of_mem a hc', hkey, hok, hval⟩

/-- C4: the stability gate samples the size twice; an `OSError` during
sampling or two unequal samples make the candidate contribute nothing to the
cycle (no events, no DB change) instead of raising, and an invocation can
only happen when the two samples were equal. -/
theorem stability_gate (cfg : Config) (db : DB) (c : Cand) :
    (c.obs.sizes = none → stepCand cfg db c = (db, [])) ∧
    (∀ s1 s2 : Nat, c.obs.sizes = some (s1, s2) → s1 ≠ s2 →
      stepCand cfg db c = (db, [])) ∧
    (∀ ev ∈ (stepCand cfg db c).2, ev.isInvoke = true →
      ∃ n : Nat, c.obs.sizes = some (n, n)) := by
  refine ⟨?_, ?_, ?_⟩
  · intro h; simp [stepCand, h]
  · intro s1 s2 h hne; simp [stepCand, h, hne]
  · intro ev hev _
    rcases hsz : c.obs.sizes with _ | ⟨s1, s2⟩
    · simp [stepCand, hsz] at hev
    · by_cases h12 : s1 = s2
      · subst h12; exact ⟨s1, rfl⟩
      · simp [stepCand, hsz, h12] at hev

/-- Concrete configuration used by the witnesses. -/
def cfgEx : Config :=
  ⟨chars "/data/out", chars "/data/processed", chars "/data/swears.txt", false, true⟩

/-- Witness for C4: a candidate whose two size samples differ is skipped. -/
def candUnstable : Cand :=
  ⟨chars "/data/in/a.mp4", none,
   ⟨some (3, 4), some ⟨3, 0⟩, none, false, chars "/data/in/a.mp4", true, 0⟩⟩

theorem stability_gate_witness :
    candUnstable.obs.sizes = some (3, 4) ∧ (3 : Nat) ≠ 4 ∧
    stepCand cfgEx [] candUnstable = ([], []) :=
  ⟨rfl, by decide,
    (stability_gate cfgEx [] candUnstable).2.1 3 4 rfl (by decide)⟩

/-- On a failed invocation, `stepCand` emits no save and no move. -/
theorem stepCand_fail_events (cfg : Config) (db : DB) (c : Cand)
    (h : c.obs.procOk = false) :
    (stepCand cfg db c).1 = db ∧
    ∀ ev ∈ (stepCand cfg db c).2, ev.isSave = false ∧ ev.isMove = false := by
  rcases stepCand_fail_shape cfg db c h with hs | hs <;> rw [hs]
  · exact ⟨rfl, fun ev hev => by simp at hev⟩
  · refine ⟨rfl, fun ev hev => ?_⟩
    simp at hev
    subst hev
    exact ⟨rfl, rfl⟩

/-- C2: a non-zero subprocess exit leaves the store record-free for that
video and performs no relocation; re-running the candidate against the
resulting state repeats the identical attempt; and any record a cycle writes
corresponds to a successfully processed (video, subtitle) fingerprint pair. -/
theorem failure_non_persistence (cfg : Config) (db : DB) (c : Cand)
    (h : c.obs.procOk = false) :
    (stepCand cfg db c).1 = db ∧
    (∀ ev ∈ (stepCand cfg db c).2, ev.isSave = false ∧ ev.isMove = false) ∧
    stepCand cfg (stepCand cfg db c).1 c = stepCand cfg db c ∧
    (∀ (db₀ : DB) (cands : List Cand) (key : Path),
      dbGet (runCandidates cfg db₀ cands).1 key ≠ dbGet db₀ key →
      ∃ c' ∈ cands, c'.obs.absKey = key ∧ c'.obs.procOk = true ∧
        dbGet (runCandidates cfg db₀ cands).1 key =
          some ⟨c'.obs.vstat, if c'.srt.isSome then c'.obs.sstat else none,
                c'.obs.now⟩) := by
  obtain ⟨h1, h2⟩ := stepCand_fail_events cfg db c h
  exact ⟨h1, h2, by rw [h1],
    fun db₀ cands key hne => runCandidates_record_origin cfg cands db₀ key hne⟩

/-- Witness for C2: a concrete candidate whose invocation fails. -/
def candFail : Cand :=
  ⟨chars "/data/in/b.mp4", none,
   ⟨some (5, 5), some ⟨5, 1⟩, none, false, chars "/data/in/b.mp4", false, 7⟩⟩

theorem failure_non_persistence_witness :
    candFail.obs.procOk = false ∧ (stepCand cfgEx [] candFail).1 = [] :=
  ⟨rfl, (failure_non_persistence cfgEx [] candFail rfl).1⟩

/-- C3: a stable candidate already recorded with matching video and subtitle
fingerprints contributes zero subprocess invocations and zero store writes
to the cycle: its step is a no-op and the cycle's result equals the result
of the cycle without it. -/
theorem idempotent_cycle_on_unchanged (cfg : Config) (db : DB)
    (l1 l2 : List Cand) (c : Cand) (e : DBEntry) (n : Nat)
    (hstable : c.obs.sizes = some (n, n))
    (hrec : dbGet db c.obs.absKey = some e)
    (hv : e.video = c.obs.vstat)
    (hs : e.subs = (if c.srt.isSome then c.obs.sstat else none))
    (hdistinct : ∀ c' ∈ l1, c'.obs.absKey ≠ c.obs.absKey) :
    stepCand cfg db c = (db, []) ∧
    runCandidates cfg db (l1 ++ c :: l2) = runCandidates cfg db (l1 ++ l2) :=
  ⟨stepCand_skip cfg db c e n hstable hrec hv hs,
   runCandidates_skip_aux cfg c e n l2 hstable hv hs l1 db hrec hdistinct⟩

/-- Witness data for C3: a recorded, unchanged, stable candidate. -/
def statEx : StatInfo := ⟨100, 50⟩

def entryEx : DBEntry := ⟨some statEx, none, 60⟩

def candMatch : Cand :=
  ⟨chars "/data/in/m.mp4", none,
   ⟨some (100, 100), some statEx, none, false, chars "/data/in/m.mp4", true, 70⟩⟩

def dbEx : DB := [(chars "/data/in/m.mp4", entryEx)]

theorem idempotent_cycle_witness :
    candMatch.obs.sizes = some (100, 100) ∧
    dbGet dbEx candMatch.obs.absKey = some entryEx ∧
    entryEx.video = candMatch.obs.vstat ∧
    stepCand cfgEx dbEx candMatch = (dbEx, []) ∧
    runCandidates cfgEx dbEx ([] ++ candMatch :: []) =
      runCandidates cfgEx dbEx ([] ++ []) := by
  have hget : dbGet dbEx candMatch.obs.absKey = some entryEx := by decide
  have hmain := idempotent_cycle_on_unchanged cfgEx dbEx [] [] candMatch entryEx 100
    rfl hget rfl rfl (fun c' hc' => absurd hc' (List.not_mem_nil c'))
  exact ⟨rfl, hget, rfl, hmain.1, hmain.2⟩

theorem moveEvents_isMove (cfg : Config) (v : Path) (s : Option Path) (obs : CandObs) :
    ∀ ev ∈ moveEvents cfg v s obs, ev.isMove = true := by
  intro ev hev
  by_cases hpi : cfg.preserve_input = true
  · simp [moveEvents, hpi] at hev
  · simp [moveEvents, hpi] at hev
    rcases hev with rfl | hev
    · rfl
    · rcases s with _ | s
      · simp at hev
      · by_cases hsf : obs.srtIsFile = true
        · simp [hsf] at hev; subst hev; rfl
        · simp [hsf] at hev

theorem stepCand_no_sleep (cfg : Config) (db : DB) (c : Cand) :
    ∀ ev ∈ (stepCand cfg db c).2, ev.isSleep = false := by
  intro ev hev
  rcases hsz : c.obs.sizes with _ | ⟨s1, s2⟩
  · simp [stepCand, hsz] at hev
  · by_cases h12 : s1 = s2
    · subst h12
      by_cases hneed : needsProcessing (dbGet db c.obs.absKey) c.obs.vstat
          (if c.srt.isSome then c.obs.sstat else none) = false
      · simp [stepCand, hsz, hneed] at hev
      · cases hok : c.obs.procOk
        · rcases stepCand_fail_shape cfg db c hok with hs | hs <;> rw [hs] at hev
          · simp at hev
          · simp at hev; subst hev; rfl
        · simp [stepCand, hsz, hneed, process, hok] at hev
          rcases hev with rfl | hev | rfl
          · rfl
          · have := moveEvents_isMove cfg c.vpath c.srt c.obs ev hev
            cases ev <;> simp_all [Event.isMove, Event.isSleep]
          · rfl
    · simp [stepCand, hsz, h12] at hev

theorem runCandidates_no_sleep (cfg : Config) :
    ∀ (cands : List Cand) (db : DB),
      ∀ ev ∈ (runCandidates cfg db cands).2, ev.isSleep = false := by
  intro cands
  induction cands with
  | nil => intro db ev hev; simp [runCandidates] at hev
  | cons a t ih =>
      intro db ev hev
      rw [runCandidates_cons_snd] at hev
      rcases List.mem_append.mp hev with h | h
      · exact stepCand_no_sleep cfg db a ev h
      · exact ih _ ev h

theorem countSleep_loopStep (cfg : Config) (db : DB) (env : CycleEnv) :
    (loopStep cfg db env).2.countP (fun ev => ev.isSleep) = 1 := by
  have hzero : ∀ (cands : List Cand),
      (runCandidates cfg db cands).2.countP (fun ev => ev.isSleep) = 0 :=
    fun cands => List.countP_eq_zero.mpr
      (fun ev hev => by simp [runCandidates_no_sleep cfg cands db ev hev])
  have hone : List.countP (fun ev => ev.isSleep) [Event.sleep] = 1 := by rfl
  rcases hra : env.raiseAfter with _ | k <;>
    simp only [loopStep, cycleBody, hra] <;>
    rw [List.countP_append, hzero, hone]

theorem serviceRun_cons (cfg : Config) (db : DB) (a : CycleEnv) (t : List CycleEnv) :
    serviceRun cfg db (a :: t) =
      ((serviceRun cfg (loopStep cfg db a).1 t).1,
        (loopStep cfg db a).2 ++ (serviceRun cfg (loopStep cfg db a).1 t).2) := rfl

/-- C6: every cycle, including one in which an exception escaped the cycle
body at any point, is caught at the cycle boundary and followed by exactly
one interval sleep, after which the service runs the next cycle; the loop
consumes every cycle environment handed to it and never terminates on its
own. -/
theorem cycle_failures_isolated (cfg : Config) (db : DB) (envs : List CycleEnv) :
    (serviceRun cfg db envs).2.countP (fun ev => ev.isSleep) = envs.length ∧
    (∀ env : CycleEnv,
      serviceRun cfg db (envs ++ [env]) =
        ((loopStep cfg (serviceRun cfg db envs).1 env).1,
          (serviceRun cfg db envs).2 ++
            (loopStep cfg (serviceRun cfg db envs).1 env).2)) := by
  induction envs generalizing db with
  | nil =>
      refine ⟨rfl, fun env => ?_⟩
      simp [serviceRun]
  | cons a t ih =>
      refine ⟨?_, ?_⟩
      · rw [serviceRun_cons]
        simp only [List.countP_append]
        rw [countSleep_loopStep, (ih (loopStep cfg db a).1).1]
        simp [List.length_cons, Nat.add_comm]
      · intro env
        have h2 := (ih (loopStep cfg db a).1).2 env
        rw [List.cons_append, serviceRun_cons, h2, serviceRun_cons]
        simp [List.append_assoc]

theorem stemGet_insertPaths (ps : List Path) :
    ∀ (m : StemMap) (k : Path),
      stemGet (insertPaths m ps) k =
        match stemGet (insertPaths [] ps) k with
        | some v => some v
        | none => stemGet m k := by
  induction ps with
  | nil => intro m k; simp [insertPaths, stemGet]
  | cons p rest ih =>
      intro m k
      rw [insertPaths, insertPaths,
        ih (stemSet m (splitext (basename p)).1 p) k,
        ih (stemSet [] (splitext (basename p)).1 p) k]
      cases hres : stemGet (insertPaths [] rest) k
      · rw [stemGet_stemSet, stemGet_stemSet]
        by_cases hk : (splitext (basename p)).1 = k <;> simp [hk, stemGet]
      · rfl

theorem stemGet_foldInsert (f : Root → List Path) (roots : List Root) :
    ∀ (m : StemMap) (k : Path),
      stemGet (roots.foldl (fun m r => insertPaths m (f r)) m) k =
        match List.findSome? (fun r => stemGet (insertPaths [] (f r)) k) roots.reverse with
        | some v => some v
        | none => stemGet m k := by
  induction roots with
  | nil => intro m k; simp [List.findSome?]
  | cons r rest ih =>
      intro m k
      rw [List.foldl_cons, ih, List.reverse_cons, List.findSome?_append]
      cases h1 : List.findSome? (fun r => stemGet (insertPaths [] (f r)) k) rest.reverse
      · rw [stemGet_insertPaths (f r) m k]
        cases h2 : stemGet (insertPaths [] (f r)) k <;>
          simp [List.findSome?, h2, Option.or]
      · rfl

/-- C8: across the configured watch roots, the stem maps are merged with
later roots overwriting earlier ones: the path kept for a stem is the one
contributed by the last root, in configuration order, that contains that
stem (first hit scanning the roots in reverse). -/
theorem merge_last_root_wins (roots : List Root) (stem : Path) :
    stemGet (buildVideoMap roots) stem =
      List.findSome? (fun r => stemGet (rootVideoMap r) stem) roots.reverse ∧
    stemGet (buildSubsMap roots) stem =
      List.findSome? (fun r => stemGet (rootSubsMap r) stem) roots.reverse := by
  constructor
  · rw [buildVideoMap,
      stemGet_foldInsert (fun r => find_videos r.dir r.listing) roots [] stem]
    cases h : List.findSome?
        (fun r => stemGet (insertPaths [] (find_videos r.dir r.listing)) stem)
        roots.reverse <;> simp [rootVideoMap, h, stemGet]
  · rw [buildSubsMap,
      stemGet_foldInsert (fun r => find_subs r.dir r.listing) roots [] stem]
    cases h : List.findSome?
        (fun r => stemGet (insertPaths [] (find_subs r.dir r.listing)) stem)
        roots.reverse <;> simp [rootSubsMap, h, stemGet]

theorem suffix_map_iff (suf nm : Path) :
    suf.isSuffixOf (nm.map Char.toLower) = true ↔
      ∃ pre s, nm = pre ++ s ∧ s.map Char.toLower = suf := by
  rw [List.isSuffixOf_iff_suffix]
  constructor
  · rintro ⟨t, ht⟩
    rcases List.append_eq_map_iff.mp ht with ⟨l₁, l₂, hn, _, hsuf⟩
    exact ⟨l₁, l₂, hn, hsuf⟩
  · rintro ⟨pre, s, rfl, hs⟩
    exact ⟨pre.map Char.toLower, by rw [← hs, ← List.map_append]⟩

theorem endsWithAny_iff (nm : Path) (exts : List Path) :
    endsWithAny nm exts = true ↔
      ∃ e ∈ exts, ∃ pre s, nm = pre ++ s ∧ s.map Char.toLower = e := by
  rw [endsWithAny, List.any_eq_true]
  constructor
  · rintro ⟨e, he, hsuf⟩
    rcases (suffix_map_iff e nm).mp hsuf with ⟨pre, s, h1, h2⟩
    exact ⟨e, he, pre, s, h1, h2⟩
  · rintro ⟨e, he, pre, s, h1, h2⟩
    exact ⟨e, he, (suffix_map_iff e nm).mpr ⟨pre, s, h1, h2⟩⟩

/-- C7: for an existing root the scanner yields exactly the joined paths of
the listed entries that are regular files, are not dot-prefixed, and whose
name decomposes as something followed by a suffix that lowercases to one of
the allow-listed extensions (`.srt` for subtitles); a non-existent root
yields the empty result. -/
theorem scanner_classification (root : Path) (es : List DirEntry) (p : Path) :
    (p ∈ find_videos root (some es) ↔
      ∃ e ∈ es, p = joinPath root e.name ∧ e.isFile = true ∧
        startsDot e.name = false ∧
        ∃ ext ∈ VIDEO_EXTS, ∃ pre s, e.name = pre ++ s ∧
          s.map Char.toLower = ext) ∧
    (p ∈ find_subs root (some es) ↔
      ∃ e ∈ es, p = joinPath root e.name ∧ e.isFile = true ∧
        startsDot e.name = false ∧
        ∃ pre s, e.name = pre ++ s ∧ s.map Char.toLower = chars ".srt") ∧
    find_videos root none = [] ∧ find_subs root none = [] := by
  refine ⟨?_, ?_, rfl, rfl⟩
  · rw [find_videos, List.mem_filterMap]
    constructor
    · rintro ⟨e, he, hfe⟩
      cases hds : startsDot e.name
      · rw [hds] at hfe
        simp only [Bool.false_eq_true, if_false] at hfe
        cases hif : (e.isFile && endsWithAny e.name VIDEO_EXTS)
        · rw [hif] at hfe; simp at hfe
        · rw [hif] at hfe
          simp only [if_true] at hfe
          rw [Bool.and_eq_true] at hif
          obtain ⟨hfile, hext⟩ := hif
          rcases (endsWithAny_iff e.name VIDEO_EXTS).mp hext with ⟨x, hx, pre, s, h1, h2⟩
          exact ⟨e, he, (Option.some_inj.mp hfe).symm, hfile, hds, x, hx, pre, s, h1, h2⟩
      · rw [hds] at hfe; simp at hfe
    · rintro ⟨e, he, rfl, hfile, hdot, x, hx, pre, s, h1, h2⟩
      refine ⟨e, he, ?_⟩
      have hext : endsWithAny e.name VIDEO_EXTS = true :=
        (endsWithAny_iff e.name VIDEO_EXTS).mpr ⟨x, hx, pre, s, h1, h2⟩
      rw [hdot, hfile, hext]
      simp
  · rw [find_subs, List.mem_filterMap]
    constructor
    · rintro ⟨e, he, hfe⟩
      cases hds : startsDot e.name
      · rw [hds] at hfe
        simp only [Bool.false_eq_true, if_false] at hfe
        cases hif : (e.isFile && endsWithAny e.name [chars ".srt"])
        · rw [hif] at hfe; simp at hfe
        · rw [hif] at hfe
          simp only [if_true] at hfe
          rw [Bool.and_eq_true] at hif
          obtain ⟨hfile, hext⟩ := hif
          rcases (endsWithAny_iff e.name [chars ".srt"]).mp hext with ⟨x, hx, pre, s, h1, h2⟩
          rcases List.mem_singleton.mp hx with rfl
          exact ⟨e, he, (Option.some_inj.mp hfe).symm, hfile, hds, pre, s, h1, h2⟩
      · rw [hds] at hfe; simp at hfe
    · rintro ⟨e, he, rfl, hfile, hdot, pre, s, h1, h2⟩
      refine ⟨e, he, ?_⟩
      have hext : endsWithAny e.name [chars ".srt"] = true :=
        (endsWithAny_iff e.name [chars ".srt"]).mpr
          ⟨chars ".srt", List.mem_singleton.mpr rfl, pre, s, h1, h2⟩
      rw [hdot, hfile, hext]
      simp

theorem basename_no_slash (p : Path) : ∀ c ∈ basename p, c ≠ '/' := by
  intro c hc
  rw [basename, List.mem_reverse] at hc
  have := List.mem_takeWhile_imp hc
  exact of_decide_eq_true this

theorem basename_eq_self (p : Path) (h : ∀ c ∈ p, c ≠ '/') : basename p = p := by
  rw [basename, List.takeWhile_eq_self_iff.mpr, List.reverse_reverse]
  intro c hc
  exact decide_eq_true (h c (List.mem_reverse.mp hc))

theorem basename_idem (p : Path) : basename (basename p) = basename p :=
  basename_eq_self (basename p) (basename_no_slash p)

theorem basename_suffix (p : Path) : ∃ pre, p = pre ++ basename p := by
  refine ⟨(p.reverse.dropWhile (fun c => c ≠ '/')).reverse, ?_⟩
  rw [basename, ← List.reverse_append, List.takeWhile_append_dropWhile,
    List.reverse_reverse]

/-- The extension computed by `os.path.splitext` depends only on the
basename: splitting the full path and splitting its basename give the same
extension. -/
theorem splitext_ext_eq (p : Path) : (splitext (basename p)).2 = (splitext p).2 := by
  obtain ⟨pre, hp⟩ := basename_suffix p
  have hidem := basename_idem p
  simp only [splitext, hidem]
  set bn := basename p with hbn
  by_cases h1 : ((bn.reverse.takeWhile (fun c => c ≠ '.')).length = bn.length)
  · rw [if_pos h1, if_pos h1]
  · rw [if_neg h1, if_neg h1]
    by_cases h2 : ((bn.reverse.drop
        ((bn.reverse.takeWhile (fun c => c ≠ '.')).length + 1)).any
          (fun c => c ≠ '.') = true)
    · rw [if_pos h2, if_pos h2]
      have hle : (bn.reverse.takeWhile (fun c => c ≠ '.')).length ≤ bn.length := by
        have := takeWhile_le_length (fun c => decide (c ≠ '.')) bn.reverse
        simpa using this
      have hk : (bn.reverse.takeWhile (fun c => c ≠ '.')).length + 1 ≤ bn.length :=
        Nat.succ_le_of_lt (Nat.lt_of_le_of_ne hle h1)
      dsimp only
      conv_rhs => rw [hp]
      rw [List.length_append, Nat.add_sub_assoc hk, List.drop_append]
    · rw [if_neg h2, if_neg h2]

/-- C9: for every input path, the invoker's output path is the directory
chosen by `write_next_to_input` (the input's own directory, else the output
directory) joined with the input's file name with `_clean` inserted before
its extension; in particular `name.mp4` becomes `name_clean.mp4`. -/
theorem output_location_and_naming (p od : Path) :
    outFile p od true = joinPath (dirname p) (insertCleanSuffix (basename p)) ∧
    outFile p od false = joinPath od (insertCleanSuffix (basename p)) ∧
    outFile (chars "name.mp4") od true = chars "name_clean.mp4" := by
  refine ⟨?_, ?_, rfl⟩
  · rw [outFile, insertCleanSuffix, splitext_ext_eq]
    simp
  · rw [outFile, insertCleanSuffix, splitext_ext_eq]
    simp

/-! ### Structure lemmas for well-formed names, used by the rescan claim -/

theorem video_ext_shape : ∀ x ∈ VIDEO_EXTS,
    x.head? = some '.' ∧ (∀ c ∈ x.drop 1, c ≠ '.') ∧ (∀ c ∈ x, c ≠ '/') := by
  decide

theorem reverse_append_cons (s r : Path) (x : Char) :
    (s ++ x :: r).reverse = r.reverse ++ x :: s.reverse := by
  rw [List.reverse_append, List.reverse_cons, List.append_assoc,
    List.singleton_append]

/-- `os.path.splitext` on a slash-free name of the shape `s ++ '.' :: r`,
where `s` contains a non-dot character and `r` contains no dot, splits
exactly there. -/
theorem splitext_append (s r : Path)
    (hnd : ∃ c ∈ s, c ≠ '.')
    (hs : ∀ c ∈ s, c ≠ '/')
    (hr : ∀ c ∈ r, c ≠ '.')
    (hrs : ∀ c ∈ r, c ≠ '/') :
    splitext (s ++ '.' :: r) = (s, '.' :: r) := by
  have hbase : basename (s ++ '.' :: r) = s ++ '.' :: r := by
    refine basename_eq_self _ (fun c hc => ?_)
    rcases List.mem_append.mp hc with h | h
    · exact hs c h
    · rcases List.mem_cons.mp h with rfl | h
      · decide
      · exact hrs c h
  have hrev : (s ++ '.' :: r).reverse = r.reverse ++ '.' :: s.reverse :=
    reverse_append_cons s r '.'
  have htw : (s ++ '.' :: r).reverse.takeWhile (fun c => c ≠ '.') = r.reverse := by
    rw [hrev]
    exact takeWhile_all_append _ _ _ _
      (fun a ha => decide_eq_true (hr a (List.mem_reverse.mp ha)))
      (by decide)
  have hlen : (s ++ '.' :: r).length = s.length + (r.length + 1) := by
    simp [List.length_append, Nat.add_comm]
  have h1 : ¬ (((s ++ '.' :: r).reverse.takeWhile (fun c => c ≠ '.')).length =
      (s ++ '.' :: r).length) := by
    rw [htw, List.length_reverse, hlen]
    omega
  have hdrop : (s ++ '.' :: r).reverse.drop
      (((s ++ '.' :: r).reverse.takeWhile (fun c => c ≠ '.')).length + 1) =
        s.reverse := by
    rw [htw, hrev, List.length_reverse]
    have hidx : r.length + 1 = r.reverse.length + 1 := by
      rw [List.length_reverse]
    rw [hidx, List.drop_append 1]
    rfl
  have h2 : ((s ++ '.' :: r).reverse.drop
      (((s ++ '.' :: r).reverse.takeWhile (fun c => c ≠ '.')).length + 1)).any
        (fun c => c ≠ '.') = true := by
    rw [hdrop]
    obtain ⟨c, hc, hne⟩ := hnd
    exact List.any_eq_true.mpr ⟨c, List.mem_reverse.mpr hc, decide_eq_true hne⟩
  have hsub : (s ++ '.' :: r).length -
      (((s ++ '.' :: r).reverse.takeWhile (fun c => c ≠ '.')).length + 1) =
        s.length := by
    rw [htw, List.length_reverse, hlen]
    omega
  simp only [splitext, hbase]
  rw [if_neg h1, if_pos h2, hsub]
  rw [List.take_left, List.drop_left]

theorem basename_join (root n : Path) (hn : ∀ c ∈ n, c ≠ '/') :
    basename (root ++ '/' :: n) = n := by
  rw [basename, reverse_append_cons]
  rw [takeWhile_all_append _ _ _ _
    (fun a ha => decide_eq_true (hn a (List.mem_reverse.mp ha))) (by decide)]
  exact List.reverse_reverse n

theorem dirname_join (root n : Path) (hroot0 : root ≠ [])
    (hrootL : root.getLast? ≠ some '/') (hn : ∀ c ∈ n, c ≠ '/') :
    dirname (root ++ '/' :: n) = root := by
  have hgl : root.reverse.head? = some (root.getLast hroot0) := by
    rw [List.head?_reverse]
    exact (List.getLast?_eq_getLast root hroot0).symm ▸ rfl
  have hglne : root.getLast hroot0 ≠ '/' := by
    intro hcontra
    exact hrootL (by rw [List.getLast?_eq_getLast root hroot0, hcontra])
  rcases hrv : root.reverse with _ | ⟨c, rest⟩
  · exact absurd (by simpa using congrArg List.reverse hrv) hroot0
  · have hc : c = root.getLast hroot0 := by
      rw [hrv] at hgl
      exact (Option.some_inj.mp hgl).symm ▸ rfl
    have hcne : (c = '/') = False := by
      simp [hc, hglne]
    have hdw : (root ++ '/' :: n).reverse.dropWhile (fun c => c ≠ '/') =
        '/' :: root.reverse := by
      rw [reverse_append_cons]
      exact dropWhile_all_append _ _ _ _
        (fun a ha => decide_eq_true (hn a (List.mem_reverse.mp ha))) (by decide)
    have hhead : (('/' : Char) :: root.reverse).reverse = root ++ ['/'] := by
      rw [List.reverse_cons, List.reverse_reverse]
    have hnotall : ((root ++ ['/']).all (fun c => c = '/')) = false := by
      refine Bool.eq_false_iff.mpr (fun hall => ?_)
      have := List.all_eq_true.mp hall (root.getLast hroot0)
        (List.mem_append.mpr (Or.inl (List.getLast_mem hroot0)))
      exact hglne (of_decide_eq_true this)
    have hne : (root ++ ['/']).isEmpty = false := by
      cases root <;> rfl
    have hdw2 : List.dropWhile (fun c => decide (c = '/')) ('/' :: root.reverse) =
        root.reverse := by
      rw [List.dropWhile_cons, if_pos (by decide), hrv, List.dropWhile_cons,
        if_neg (by simp [hcne])]
    simp only [dirname, hdw, hhead]
    rw [if_neg (by simp [hne, hnotall])]
    rw [List.reverse_append]
    simp only [List.reverse_cons, List.reverse_nil, List.nil_append,
      List.singleton_append]
    rw [hdw2, List.reverse_reverse]

theorem joinPath_eq (root n : Path) (hroot0 : root ≠ [])
    (hrootL : root.getLast? ≠ some '/') (hn : n.head? ≠ some '/') :
    joinPath root n = root ++ '/' :: n := by
  rw [joinPath, if_neg hn, if_neg (by simp [hroot0, hrootL])]

/-- C10: the scanner excludes nothing that the invoker produces: for a
well-formed video file name `stem` + `'.'` + `erest` in a watch root, the
output written next to the input is the root joined with
`stem ++ "_clean"` + the original extension; a later scan of that root
listing this output classifies it as a video candidate again, under the
stem `stem ++ "_clean"`. -/
theorem outputs_rescanned (stem erest root od : Path)
    (hnd : ∃ c ∈ stem, c ≠ '.')
    (hhead : stem.head? ≠ some '.')
    (hslash : ∀ c ∈ stem, c ≠ '/')
    (hlow : ('.' :: erest).map Char.toLower ∈ VIDEO_EXTS)
    (hroot0 : root ≠ [])
    (hrootL : root.getLast? ≠ some '/') :
    outFile (joinPath root (stem ++ '.' :: erest)) od true =
      joinPath root (stem ++ chars "_clean" ++ '.' :: erest) ∧
    find_videos root (some [⟨stem ++ chars "_clean" ++ '.' :: erest, true⟩]) =
      [joinPath root (stem ++ chars "_clean" ++ '.' :: erest)] ∧
    (splitext (stem ++ chars "_clean" ++ '.' :: erest)).1 =
      stem ++ chars "_clean" := by
  obtain ⟨c0, s', rfl⟩ : ∃ c0 s', stem = c0 :: s' := by
    cases stem
    · obtain ⟨c, hc, _⟩ := hnd
      exact absurd hc (List.not_mem_nil c)
    · exact ⟨_, _, rfl⟩
  have hc0d : c0 ≠ '.' := by
    intro h
    exact hhead (by rw [List.head?_cons, h])
  have hc0s : c0 ≠ '/' := hslash c0 (List.mem_cons_self c0 s')
  have hdotlower : Char.toLower '.' = '.' := by decide
  have hmap : ('.' :: erest).map Char.toLower = '.' :: erest.map Char.toLower := by
    rw [List.map_cons, hdotlower]
  obtain ⟨hx1, hx2, hx3⟩ := video_ext_shape _ hlow
  have hdrop1 : (('.' :: erest).map Char.toLower).drop 1 = erest.map Char.toLower := by
    rw [hmap]
    rfl
  have herest_nd : ∀ c ∈ erest, c ≠ '.' := by
    intro c hc hcontra
    subst hcontra
    have hmem : ('.' : Char) ∈ (('.' :: erest).map Char.toLower).drop 1 := by
      rw [hdrop1, ← hdotlower]
      exact List.mem_map_of_mem Char.toLower hc
    exact hx2 '.' hmem rfl
  have herest_ns : ∀ c ∈ erest, c ≠ '/' := by
    intro c hc hcontra
    subst hcontra
    have hmem : ('/' : Char) ∈ ('.' :: erest).map Char.toLower := by
      have : Char.toLower '/' = '/' := by decide
      rw [← this]
      exact List.mem_map_of_mem Char.toLower (List.mem_cons_of_mem _ hc)
    exact hx3 '/' hmem rfl
  have hn_ns : ∀ c ∈ (c0 :: s') ++ '.' :: erest, c ≠ '/' := by
    intro c hc
    rcases List.mem_append.mp hc with h | h
    · exact hslash c h
    · rcases List.mem_cons.mp h with rfl | h
      · decide
      · exact herest_ns c h
  have hname_head : ((c0 :: s') ++ '.' :: erest).head? ≠ some '/' := by
    rw [List.cons_append, List.head?_cons]
    simp [hc0s]
  have hjoin : joinPath root ((c0 :: s') ++ '.' :: erest) =
      root ++ '/' :: ((c0 :: s') ++ '.' :: erest) :=
    joinPath_eq root _ hroot0 hrootL hname_head
  have hbase : basename (root ++ '/' :: ((c0 :: s') ++ '.' :: erest)) =
      (c0 :: s') ++ '.' :: erest :=
    basename_join root _ hn_ns
  have hdir : dirname (root ++ '/' :: ((c0 :: s') ++ '.' :: erest)) = root :=
    dirname_join root _ hroot0 hrootL hn_ns
  have hsplit_name : splitext ((c0 :: s') ++ '.' :: erest) =
      (c0 :: s', '.' :: erest) :=
    splitext_append (c0 :: s') erest hnd hslash herest_nd herest_ns
  have hns2 : ∀ c ∈ (c0 :: s') ++ chars "_clean", c ≠ '/' := by
    intro c hc
    rcases List.mem_append.mp hc with h | h
    · exact hslash c h
    · revert h
      have : ∀ c ∈ chars "_clean", c ≠ '/' := by decide
      exact this c
  have hnd2 : ∃ c ∈ (c0 :: s') ++ chars "_clean", c ≠ '.' :=
    ⟨c0, List.mem_append.mpr (Or.inl (List.mem_cons_self c0 s')), hc0d⟩
  have hsplit_clean : splitext (((c0 :: s') ++ chars "_clean") ++ '.' :: erest) =
      ((c0 :: s') ++ chars "_clean", '.' :: erest) :=
    splitext_append ((c0 :: s') ++ chars "_clean") erest hnd2 hns2 herest_nd herest_ns
  refine ⟨?_, ?_, ?_⟩
  · have hext2 : (splitext (root ++ '/' :: ((c0 :: s') ++ '.' :: erest))).2 =
        '.' :: erest := by
      rw [← splitext_ext_eq, hbase, hsplit_name]
    have hbase1 :
        (splitext (basename (root ++ '/' :: ((c0 :: s') ++ '.' :: erest)))).1 =
          c0 :: s' := by
      rw [hbase, hsplit_name]
    rw [hjoin]
    simp only [outFile, if_true]
    rw [hext2, hbase1, hdir]
  · have hsd : startsDot ((c0 :: s') ++ chars "_clean" ++ '.' :: erest) = false := by
      simp only [List.cons_append, List.append_assoc, startsDot]
      simp [hc0d]
    have hends : endsWithAny ((c0 :: s') ++ chars "_clean" ++ '.' :: erest)
        VIDEO_EXTS = true := by
      refine List.any_eq_true.mpr ⟨('.' :: erest).map Char.toLower, hlow, ?_⟩
      exact (suffix_map_iff _ _).mpr ⟨(c0 :: s') ++ chars "_clean", '.' :: erest, rfl, rfl⟩
    simp only [List.cons_append, List.append_assoc] at hsd hends
    rw [find_videos]
    simp [List.filterMap_cons, hsd, hends]
  · exact congrArg Prod.fst hsplit_clean

/-- Witness for C10 at the concrete input `movie.mp4` under `/data/in`. -/
theorem outputs_rescanned_witness :
    ((∃ c ∈ chars "movie", c ≠ '.') ∧
      (chars "movie").head? ≠ some '.' ∧
      (∀ c ∈ chars "movie", c ≠ '/') ∧
      ('.' :: chars "mp4").map Char.toLower ∈ VIDEO_EXTS ∧
      chars "/data/in" ≠ [] ∧
      (chars "/data/in").getLast? ≠ some '/') ∧
    (splitext (chars "movie" ++ chars "_clean" ++ '.' :: chars "mp4")).1 =
      chars "movie" ++ chars "_clean" := by
  refine ⟨⟨by decide, by decide, by decide, by decide, by decide, by decide⟩, ?_⟩
  exact (outputs_rescanned (chars "movie") (chars "mp4") (chars "/data/in")
    (chars "/data/out") (by decide) (by decide) (by decide) (by decide)
    (by decide) (by decide)).2.2

end Cleanvid
